import Mathlib

/-!
Verification of the territory-partitioning core of `Auswertung.py` and of the
progress-saving routine of `tracker.py`.

The greedy assignment loop (`Auswertung.py`, lines 109-152) is embedded as a
pure step function on an explicit state.  Python floats are idealized as exact
rationals: `np.linalg.norm` comparisons with `<` are embedded as comparisons of
squared Euclidean distances (the square root is strictly monotone, so the same
piece is selected), and the anchor blend `0.9 * old + 0.1 * center` is exact
rational arithmetic.  Python's `sorted` is a stable sort, and the output of a
stable sort is uniquely determined by the key and the input order, so it is
embedded with the stable `List.insertionSort` over person indices; dict/list
mutation becomes functional record update.
-/

/-- A puzzle piece (micro-cluster) as built in `Auswertung.py` lines 91-102:
stable integer id, centroid of its member points, member count, and the
`assigned` flag. -/
structure Piece where
  id : Nat
  center : ℚ × ℚ
  size : Nat
  assigned : Bool
deriving DecidableEq, Repr

/-- Squared Euclidean distance in the projected plane.  The source compares
values of `np.linalg.norm(piece['center'] - p_center)` with `<`; comparing
squared distances selects the same piece and stays inside ℚ. -/
def dist2 (a b : ℚ × ℚ) : ℚ :=
  (a.1 - b.1) ^ 2 + (a.2 - b.2) ^ 2

/-- The mutable state of the greedy distribution phase: the piece table
`puzzle_pieces`, and the per-person parallel lists `person_load`,
`person_assignments` and `person_coords_proj` (indexed by the position of the
person's name in `person_names`). -/
structure AssignState where
  puzzle_pieces : List Piece
  person_load : List Nat
  person_assignments : List (List Nat)
  person_coords_proj : List (ℚ × ℚ)
deriving DecidableEq, Repr

/-- Comparison of two person indices by their current load, the sort key of
`sorted(person_names, key=lambda p: person_load[p])`. -/
def loadRel (loads : List Nat) (a b : Nat) : Prop :=
  loads.getD a 0 ≤ loads.getD b 0

instance (loads : List Nat) : DecidableRel (loadRel loads) :=
  fun _ _ => Nat.decLe _ _

instance (loads : List Nat) : IsTotal Nat (loadRel loads) :=
  ⟨fun _ _ => Nat.le_total _ _⟩

instance (loads : List Nat) : IsTrans Nat (loadRel loads) :=
  ⟨fun _ _ _ h1 h2 => le_trans h1 h2⟩

/-- Embedding of `sorted_persons = sorted(person_names, key=...)` (line 125):
persons are identified with their indices, and Python's stable `sorted` is
embedded as a stable insertion sort by load (any two stable sorts agree). -/
def sorted_persons (loads : List Nat) : List Nat :=
  List.insertionSort (loadRel loads) (List.range loads.length)

/-- Embedding of `current_person = sorted_persons[0]` / `p_idx =
person_names.index(current_person)` (lines 126-127): names are unique dict
keys, so the index of the first name in the stable sort is the head of the
sorted index list. -/
def selectPerson (loads : List Nat) : Nat :=
  (sorted_persons loads).headD 0

/-- Body of the nearest-piece scan (lines 134-140): skip assigned pieces, and
replace the running best `(best_piece, best_dist)` exactly when the new
distance is strictly smaller.  `none` plays the role of `best_dist = inf`. -/
def betterPiece (p_center : ℚ × ℚ) (piece : Piece) (acc : Option (Piece × ℚ)) :
    Option (Piece × ℚ) :=
  if piece.assigned then acc
  else
    match acc with
    | none => some (piece, dist2 piece.center p_center)
    | some (b, bd) =>
      if dist2 piece.center p_center < bd then some (piece, dist2 piece.center p_center)
      else some (b, bd)

/-- Embedding of the nearest-piece scan (lines 131-140): a left fold of
`betterPiece` over `puzzle_pieces`, started from `best_piece = None`. -/
def findBest (p_center : ℚ × ℚ) : List Piece → Option (Piece × ℚ) → Option (Piece × ℚ)
  | [], acc => acc
  | piece :: rest, acc => findBest p_center rest (betterPiece p_center piece acc)

/-- Embedding of `best_piece['assigned'] = True` (line 144): the loop body
mutates the selected piece object in place; with distinct piece ids this is
the update of the unique piece of the table carrying that id. -/
def markAssigned (pieces : List Piece) (pid : Nat) : List Piece :=
  pieces.map fun q => if q.id = pid then { q with assigned := true } else q

/-- One iteration of the while-loop body (`Auswertung.py` lines 122-152):
pick the least-loaded person (stable sort, head), scan for its nearest
unassigned piece, mark the piece, append its id, add its size to the person's
load, and blend the person's anchor `0.9 * old + 0.1 * center`.  When every
piece is assigned (`best_piece` is `None`) the state is unchanged. -/
def step (st : AssignState) : AssignState :=
  let p_idx := selectPerson st.person_load
  let p_center := st.person_coords_proj.getD p_idx (0, 0)
  match findBest p_center st.puzzle_pieces none with
  | none => st
  | some (best_piece, _) =>
    { puzzle_pieces := markAssigned st.puzzle_pieces best_piece.id
      person_load := st.person_load.set p_idx (st.person_load.getD p_idx 0 + best_piece.size)
      person_assignments :=
        st.person_assignments.set p_idx (st.person_assignments.getD p_idx [] ++ [best_piece.id])
      person_coords_proj :=
        st.person_coords_proj.set p_idx
          (p_center.1 * (9 / 10) + best_piece.center.1 * (1 / 10),
           p_center.2 * (9 / 10) + best_piece.center.2 * (1 / 10)) }

/-- Number of pieces whose `assigned` flag is still false; the loop variable
`unassigned_count` always equals this quantity (initialized to
`n_puzzle_pieces` with all flags false, decremented exactly when a flag is
flipped). -/
def countUnassigned (pieces : List Piece) : Nat :=
  (pieces.filter fun p => !p.assigned).length

/-- Iterated loop body. -/
def assignLoop : Nat → AssignState → AssignState
  | 0, st => st
  | n + 1, st => assignLoop n (step st)

/-- The full while-loop `while unassigned_count > 0` (lines 120-152): it runs
one iteration per initially-unassigned piece (each iteration flips exactly one
flag and decrements `unassigned_count` by one, as proved below). -/
def runAssignment (st : AssignState) : AssignState :=
  assignLoop (countUnassigned st.puzzle_pieces) st

/-- The state right before the loop (lines 109-120): zero loads, empty
assignment lists, anchors at the persons' projected start coordinates. -/
def initState (pieces : List Piece) (starts : List (ℚ × ℚ)) : AssignState :=
  { puzzle_pieces := pieces
    person_load := starts.map fun _ => 0
    person_assignments := starts.map fun _ => []
    person_coords_proj := starts }

/-- Largest piece size in the table. -/
def maxSize (pieces : List Piece) : Nat :=
  (pieces.map Piece.size).foldr max 0

/-- Total number of member points across the table. -/
def totalSize (pieces : List Piece) : Nat :=
  (pieces.map Piece.size).sum

/-- Embedding of the `micro_to_person` dict (lines 156-159): the dict maps a
piece id to the name of the person whose assignment list contains it; when
each id occurs in exactly one list, the dict lookup is the first such
person. -/
def micro_to_person (assignments : List (List Nat)) (pid : Nat) : Option Nat :=
  (List.range assignments.length).find? fun a => (assignments.getD a []).contains pid

/-- Arithmetic mean of a list of planar points (`points.mean(axis=0)`,
line 95). -/
def centroid (pts : List (ℚ × ℚ)) : ℚ × ℚ :=
  ((pts.map Prod.fst).sum / pts.length, (pts.map Prod.snd).sum / pts.length)

/-- The piece table built from the clustering labels (lines 91-102): for each
label `i < P`, the member points are those whose label is `i`, the centroid is
their mean, the size their count, and the flag starts false. -/
def mkPieces (X : List (ℚ × ℚ)) (labels : List Nat) (P : Nat) : List Piece :=
  (List.range P).map fun i =>
    let pts := ((X.zip labels).filter fun xl => xl.2 == i).map Prod.fst
    { id := i, center := centroid pts, size := pts.length, assigned := false }

/-- Sum of sizes of the pieces already assigned. -/
def totalAssigned (pieces : List Piece) : ℕ :=
  ((pieces.filter Piece.assigned).map Piece.size).sum

/-- Ids of the pieces already assigned. -/
def assignedIds (pieces : List Piece) : List ℕ :=
  (pieces.filter Piece.assigned).map Piece.id

/-- Balance invariant carried through the loop: all piece sizes are bounded by
`M`, the person list is non-empty, and every two loads differ by at most `M`. -/
def FairInv (M : ℕ) (st : AssignState) : Prop :=
  (∀ p ∈ st.puzzle_pieces, p.size ≤ M) ∧ st.person_load ≠ [] ∧
    ∀ i j, i < st.person_load.length → j < st.person_load.length →
      st.person_load.getD i 0 ≤ st.person_load.getD j 0 + M

/-- Mass invariant carried through the loop: parallel list lengths agree, the
piece ids are distinct, the ids collected in the assignment lists are exactly
the ids of the pieces marked assigned, and the loads sum to the assigned
sizes. -/
def MassInv (st : AssignState) : Prop :=
  st.person_load ≠ [] ∧
  st.person_assignments.length = st.person_load.length ∧
  (st.puzzle_pieces.map Piece.id).Nodup ∧
  (st.person_assignments.flatten).Perm (assignedIds st.puzzle_pieces) ∧
  st.person_load.sum = totalAssigned st.puzzle_pieces

/-- Modelled from the spec: the micro-clustering itself is delegated to the
external library routine `AgglomerativeClustering` (line 87), which is not
part of this repository; per the spec contract the generator must produce `P`
disjoint non-empty groups covering the `N` input points and must fail
explicitly when `N < P`.  The grouping is modelled as: each of the first
`P - 1` groups takes one point, the last group takes all remaining points. -/
def splitGroups (X : List (ℚ × ℚ)) (P : ℕ) : List (List (ℚ × ℚ)) :=
  (List.range P).map fun i => if i + 1 = P then X.drop i else [X.getD i (0, 0)]

/-- Modelled from the spec: the generator fails explicitly (the library raises
an error) when there are fewer points than requested clusters; otherwise it
yields the groups. -/
def microClusterGenerator (X : List (ℚ × ℚ)) (P : ℕ) :
    Except String (List (List (ℚ × ℚ))) :=
  if X.length < P then Except.error ("cannot extract more clusters than samples")
  else Except.ok (splitGroups X P)

/-- Piece table induced by generator groups (stable id = group position,
centroid and size of the group, flag initially false), as in lines 91-102. -/
def piecesOfGroups (groups : List (List (ℚ × ℚ))) : List Piece :=
  (List.range groups.length).map fun i =>
    { id := i, center := centroid (groups.getD i []), size := (groups.getD i []).length,
      assigned := false }

/-- Micro-clustering followed by the greedy loop: the loop runs only when the
generator succeeds (an uncaught clustering exception aborts the program before
line 122 is reached). -/
def assignPipeline (X : List (ℚ × ℚ)) (P : ℕ) (starts : List (ℚ × ℚ)) :
    Except String AssignState :=
  (microClusterGenerator X P).map fun groups =>
    runAssignment (initState (piecesOfGroups groups) starts)

/-- Five unassigned unit-size pieces on the x-axis for the one-actor scenario:
their centroids are at distances 1, 1.1, 1.2, 100 and 101 from the origin. -/
def exPieces : List Piece :=
  [ { id := 0, center := (1, 0), size := 1, assigned := false },
    { id := 1, center := (-11 / 10, 0), size := 1, assigned := false },
    { id := 2, center := (6 / 5, 0), size := 1, assigned := false },
    { id := 3, center := (100, 0), size := 1, assigned := false },
    { id := 4, center := (101, 0), size := 1, assigned := false } ]

/-- A mid-run state whose three persons carry loads 3, 1 and 1. -/
def loadState : AssignState :=
  { puzzle_pieces := []
    person_load := [3, 1, 1]
    person_assignments := [[], [], []]
    person_coords_proj := [(0, 0), (0, 0), (0, 0)] }

/-- An unassigned unit piece at x = 1. -/
def tiePieceA : Piece := { id := 0, center := (1, 0), size := 1, assigned := false }

/-- An unassigned unit piece at x = -1, equally far from the origin. -/
def tiePieceB : Piece := { id := 1, center := (-1, 0), size := 1, assigned := false }

/-- A one-person state whose two unassigned pieces are at the same distance
from the person's anchor. -/
def tieState : AssignState :=
  { puzzle_pieces := [tiePieceA, tiePieceB]
    person_load := [0]
    person_assignments := [[]]
    person_coords_proj := [(0, 0)] }

/-- A two-piece table used to instantiate universally quantified theorems. -/
def wPieces : List Piece :=
  [ { id := 0, center := (0, 0), size := 2, assigned := false },
    { id := 1, center := (5, 0), size := 1, assigned := false } ]

/-- Two start coordinates matching `wPieces`. -/
def wStarts : List (ℚ × ℚ) := [(0, 0), (5, 0)]

/-- The module-level mutable state of `tracker.py`: the global list
`completed_streets` (line 117). -/
structure TrackerGlobals where
  completed_streets : List String
deriving DecidableEq

/-- A Google sheet, modelled by its list of rows. -/
structure Sheet where
  rows : List (List String)
deriving DecidableEq

/-- Embedding of `save_progress_google(completed_list)` (`tracker.py` lines
60-70): `sheet.clear()` empties the sheet, then `column_data` is built from
the module-global `completed_streets` — not from the `completed_list`
parameter — and is written at A1 when non-empty. -/
def save_progress_google (g : TrackerGlobals) (completed_list : List String)
    (sheet : Sheet) : Sheet :=
  let cleared : Sheet := { rows := [] }
  let column_data := g.completed_streets.map fun street => [street]
  if column_data = [] then cleared else { rows := column_data }

/-- Four collinear points used to instantiate the coverage theorem. -/
def wX : List (ℚ × ℚ) := [(0, 0), (1, 0), (2, 0), (3, 0)]

/-- Labels putting points 0 and 3 in micro-cluster 0 and points 1 and 2 in
micro-cluster 1. -/
def wLabels : List ℕ := [0, 1, 1, 0]

/-! ### Generic list helpers -/

lemma pair_sublist_range {a b n : ℕ} (hab : a < b) (hbn : b < n) :
    [a, b].Sublist (List.range n) := by
  have e : List.range' 0 b 1 ++ List.range' (0 + 1 * b) (n - b) 1
      = List.range' 0 ((n - b) + b) 1 := List.range'_append 0 b (n - b) 1
  have e2 : (n - b) + b = n := by omega
  have hr : List.range n = List.range' 0 b ++ List.range' b (n - b) := by
    rw [List.range_eq_range', ← e2, ← e]
    norm_num
  rw [hr]
  have h1 : [a].Sublist (List.range' 0 b) := by
    rw [List.singleton_sublist]
    rw [(List.range_eq_range' b).symm]
    exact List.mem_range.mpr hab
  have h2 : [b].Sublist (List.range' b (n - b)) := by
    rw [List.singleton_sublist, List.mem_range'_1]
    omega
  exact h1.append h2

lemma headD_mem {α : Type} {l : List α} (d : α) (h : l ≠ []) : l.headD d ∈ l := by
  cases l with
  | nil => exact absurd rfl h
  | cons a t => exact List.mem_cons_self a t

lemma sum_range_count (labels : List ℕ) (P : ℕ) (h : ∀ l ∈ labels, l < P) :
    ∑ i ∈ Finset.range P, labels.count i = labels.length := by
  have h1 : ∑ i ∈ Finset.range P, labels.count i
      = ∑ i ∈ labels.toFinset, labels.count i := by
    refine (Finset.sum_subset ?_ ?_).symm
    · intro x hx
      simp only [List.mem_toFinset] at hx
      exact Finset.mem_range.mpr (h x hx)
    · intro x _ hx
      simp only [List.mem_toFinset] at hx
      exact List.count_eq_zero.mpr hx
  rw [h1]
  have h2 := Multiset.toFinset_sum_count_eq (labels : Multiset ℕ)
  simp only [Multiset.coe_count, Multiset.coe_card] at h2
  convert h2 using 2

lemma getD_set_same {α : Type} (l : List α) (i : ℕ) (x d : α) (h : i < l.length) :
    (l.set i x).getD i d = x := by
  rw [List.getD_eq_getElem _ _ (by simpa using h)]
  exact List.getElem_set_self _

lemma getD_set_other {α : Type} (l : List α) (i j : ℕ) (x d : α) (h : i ≠ j) :
    (l.set i x).getD j d = l.getD j d := by
  by_cases hj : j < l.length
  · rw [List.getD_eq_getElem _ _ (by simpa using hj), List.getD_eq_getElem _ _ hj]
    exact List.getElem_set_ne h _
  · rw [List.getD_eq_default _ _ (by simpa using (Nat.le_of_not_lt hj)),
      List.getD_eq_default _ _ (Nat.le_of_not_lt hj)]

lemma sum_set_getD_add (l : List ℕ) (i s : ℕ) (h : i < l.length) :
    (l.set i (l.getD i 0 + s)).sum = l.sum + s := by
  induction l generalizing i with
  | nil => simp at h
  | cons a t ih =>
    cases i with
    | zero => simp [List.getD_cons_zero]; omega
    | succ i' =>
      simp only [List.getD_cons_succ, List.set_cons_succ, List.sum_cons]
      rw [ih i' (by simpa using h)]
      omega

lemma flatten_set_append_perm (A : List (List ℕ)) (i x : ℕ) (h : i < A.length) :
    ((A.set i (A.getD i [] ++ [x])).flatten).Perm (x :: A.flatten) := by
  induction A generalizing i with
  | nil => simp at h
  | cons a t ih =>
    cases i with
    | zero =>
      simp only [List.getD_cons_zero, List.set_cons_zero, List.flatten_cons,
        List.append_assoc, List.singleton_append]
      exact List.perm_middle
    | succ i' =>
      simp only [List.getD_cons_succ, List.set_cons_succ, List.flatten_cons]
      exact ((ih i' (by simpa using h)).append_left a).trans List.perm_middle

lemma le_foldr_max {l : List ℕ} {x : ℕ} (hx : x ∈ l) : x ≤ l.foldr max 0 := by
  induction l with
  | nil => simp at hx
  | cons a t ih =>
    rcases List.mem_cons.mp hx with h | h
    · subst h; exact le_max_left _ _
    · exact le_trans (ih h) (le_max_right _ _)

/-! ### Properties of the least-loaded-person selection (lines 125-127) -/

lemma sorted_persons_perm (loads : List ℕ) :
    (sorted_persons loads).Perm (List.range loads.length) :=
  List.perm_insertionSort _ _

lemma sorted_persons_pairwise (loads : List ℕ) :
    (sorted_persons loads).Pairwise (loadRel loads) :=
  List.sorted_insertionSort _ _

lemma sorted_persons_ne_nil {loads : List ℕ} (h : loads ≠ []) :
    sorted_persons loads ≠ [] := by
  intro hn
  have hp := sorted_persons_perm loads
  rw [hn] at hp
  have hl := hp.length_eq
  simp only [List.length_nil, List.length_range] at hl
  exact h (List.length_eq_zero.mp hl.symm)

lemma sorted_persons_head {loads : List ℕ} (h : loads ≠ []) :
    ∃ t, sorted_persons loads = selectPerson loads :: t := by
  cases hc : sorted_persons loads with
  | nil => exact absurd hc (sorted_persons_ne_nil h)
  | cons a t => exact ⟨t, by simp [selectPerson, hc]⟩

lemma selectPerson_lt {loads : List ℕ} (h : loads ≠ []) :
    selectPerson loads < loads.length := by
  have hs := sorted_persons_ne_nil h
  have hmem : selectPerson loads ∈ sorted_persons loads := headD_mem 0 hs
  exact List.mem_range.mp ((sorted_persons_perm loads).subset hmem)

lemma selectPerson_min {loads : List ℕ} (h : loads ≠ []) (j : ℕ) (hj : j < loads.length) :
    loads.getD (selectPerson loads) 0 ≤ loads.getD j 0 := by
  obtain ⟨t, ht⟩ := sorted_persons_head h
  have hj' : j ∈ sorted_persons loads :=
    (sorted_persons_perm loads).mem_iff.mpr (List.mem_range.mpr hj)
  rw [ht] at hj'
  rcases List.mem_cons.mp hj' with rfl | hjt
  · exact le_refl _
  · have hpw := sorted_persons_pairwise loads
    rw [ht] at hpw
    exact (List.pairwise_cons.mp hpw).1 j hjt

lemma selectPerson_first {loads : List ℕ} (h : loads ≠ []) (j : ℕ)
    (hj : j < selectPerson loads) :
    loads.getD (selectPerson loads) 0 < loads.getD j 0 := by
  have hsl := selectPerson_lt h
  have hjlen : j < loads.length := lt_trans hj hsl
  have hmin := selectPerson_min h j hjlen
  rcases lt_or_eq_of_le hmin with hlt | heq
  · exact hlt
  exfalso
  have hpair : ([j, selectPerson loads]).Pairwise (loadRel loads) := by
    refine List.Pairwise.cons ?_ (List.Pairwise.cons ?_ List.Pairwise.nil)
    · intro b hb
      rw [List.mem_singleton] at hb
      subst hb
      show loads.getD j 0 ≤ loads.getD (selectPerson loads) 0
      omega
    · intro b hb
      simp at hb
  have hsub : [j, selectPerson loads].Sublist (List.range loads.length) :=
    pair_sublist_range hj hsl
  have hstable : [j, selectPerson loads].Sublist (sorted_persons loads) :=
    List.sublist_insertionSort hpair hsub
  have hnd : (sorted_persons loads).Nodup :=
    ((sorted_persons_perm loads).nodup_iff).mpr (List.nodup_range _)
  obtain ⟨t, ht⟩ := sorted_persons_head h
  rw [ht] at hstable hnd
  cases hstable with
  | cons _ h2 =>
    have hmem : selectPerson loads ∈ t := h2.subset (by simp)
    exact (List.nodup_cons.mp hnd).1 hmem
  | cons₂ _ h2 => omega

/-! ### Properties of the nearest-piece scan -/

lemma betterPiece_eq (c : ℚ × ℚ) (piece : Piece) (acc : Option (Piece × ℚ)) :
    (piece.assigned = true ∧ betterPiece c piece acc = acc) ∨
    (piece.assigned = false ∧ acc = none ∧
      betterPiece c piece acc = some (piece, dist2 piece.center c)) ∨
    (piece.assigned = false ∧ ∃ b0 d0, acc = some (b0, d0) ∧
      ((dist2 piece.center c < d0 ∧
          betterPiece c piece acc = some (piece, dist2 piece.center c)) ∨
        (d0 ≤ dist2 piece.center c ∧ betterPiece c piece acc = some (b0, d0)))) := by
  by_cases hp : piece.assigned = true
  · left
    exact ⟨hp, by simp [betterPiece, hp]⟩
  · right
    have hp' : piece.assigned = false := by simpa using hp
    cases acc with
    | none => exact Or.inl ⟨hp', rfl, by simp [betterPiece, hp']⟩
    | some pr =>
      obtain ⟨b0, d0⟩ := pr
      right
      refine ⟨hp', b0, d0, rfl, ?_⟩
      by_cases hd : dist2 piece.center c < d0
      · exact Or.inl ⟨hd, by simp [betterPiece, hp', hd]⟩
      · exact Or.inr ⟨le_of_not_lt hd, by simp [betterPiece, hp', hd]⟩

lemma findBest_all_assigned (c : ℚ × ℚ) :
    ∀ (pieces : List Piece) (acc : Option (Piece × ℚ)),
      (∀ p ∈ pieces, p.assigned = true) → findBest c pieces acc = acc := by
  intro pieces
  induction pieces with
  | nil => intro acc _; rfl
  | cons piece rest ih =>
    intro acc h
    have hp : piece.assigned = true := h piece (List.mem_cons_self _ _)
    rw [findBest]
    have hb : betterPiece c piece acc = acc := by simp [betterPiece, hp]
    rw [hb]
    exact ih acc fun p hp2 => h p (List.mem_cons_of_mem _ hp2)

lemma findBest_none (c : ℚ × ℚ) :
    ∀ (pieces : List Piece) (acc : Option (Piece × ℚ)),
      findBest c pieces acc = none → acc = none ∧ ∀ p ∈ pieces, p.assigned = true := by
  intro pieces
  induction pieces with
  | nil =>
    intro acc h
    exact ⟨h, by simp⟩
  | cons piece rest ih =>
    intro acc h
    rw [findBest] at h
    obtain ⟨hacc, hrest⟩ := ih _ h
    rcases betterPiece_eq c piece acc with ⟨hp, he⟩ | ⟨_, _, he⟩ | ⟨_, _, _, _, hsp⟩
    · rw [he] at hacc
      refine ⟨hacc, fun p hpm => ?_⟩
      rcases List.mem_cons.mp hpm with rfl | hm
      · exact hp
      · exact hrest p hm
    · rw [he] at hacc
      exact absurd hacc (by simp)
    · rcases hsp with ⟨_, he⟩ | ⟨_, he⟩ <;> rw [he] at hacc <;> exact absurd hacc (by simp)

lemma findBest_acc_le (c : ℚ × ℚ) :
    ∀ (pieces : List Piece) (b0 : Piece) (d0 : ℚ) (b : Piece) (d : ℚ),
      findBest c pieces (some (b0, d0)) = some (b, d) → d ≤ d0 := by
  intro pieces
  induction pieces with
  | nil =>
    intro b0 d0 b d h
    rw [findBest] at h
    simp only [Option.some.injEq, Prod.mk.injEq] at h
    exact le_of_eq h.2.symm
  | cons piece rest ih =>
    intro b0 d0 b d h
    rw [findBest] at h
    rcases betterPiece_eq c piece (some (b0, d0)) with ⟨_, he⟩ | ⟨_, hn, _⟩ |
        ⟨_, b1, d1, hs, hsp⟩
    · rw [he] at h
      exact ih _ _ _ _ h
    · exact absurd hn (by simp)
    · obtain ⟨hb1, hd1⟩ : b1 = b0 ∧ d1 = d0 := by
        have := hs
        simp only [Option.some.injEq, Prod.mk.injEq] at this
        exact ⟨this.1.symm, this.2.symm⟩
      subst hb1
      subst hd1
      rcases hsp with ⟨hlt, he⟩ | ⟨_, he⟩
      · rw [he] at h
        exact le_of_lt (lt_of_le_of_lt (ih _ _ _ _ h) hlt)
      · rw [he] at h
        exact ih _ _ _ _ h

lemma findBest_le (c : ℚ × ℚ) :
    ∀ (pieces : List Piece) (acc : Option (Piece × ℚ)) (b : Piece) (d : ℚ),
      findBest c pieces acc = some (b, d) →
      ∀ q ∈ pieces, q.assigned = false → d ≤ dist2 q.center c := by
  intro pieces
  induction pieces with
  | nil =>
    intro acc b d _ q hq
    simp at hq
  | cons piece rest ih =>
    intro acc b d h q hq hqa
    rw [findBest] at h
    rcases List.mem_cons.mp hq with rfl | hqr
    · rcases betterPiece_eq c q acc with ⟨hp, _⟩ | ⟨_, _, he⟩ | ⟨_, b1, d1, _, hsp⟩
      · rw [hqa] at hp
        exact absurd hp (by simp)
      · rw [he] at h
        exact findBest_acc_le c rest _ _ _ _ h
      · rcases hsp with ⟨_, he⟩ | ⟨hge, he⟩
        · rw [he] at h
          exact findBest_acc_le c rest _ _ _ _ h
        · rw [he] at h
          exact le_trans (findBest_acc_le c rest _ _ _ _ h) hge
    · exact ih _ _ _ h q hqr hqa

lemma findBest_priority (c : ℚ × ℚ) :
    ∀ (pieces : List Piece) (acc : Option (Piece × ℚ)) (b : Piece) (d : ℚ),
      findBest c pieces acc = some (b, d) →
      acc = some (b, d) ∨
      (∃ pre suf, pieces = pre ++ b :: suf ∧ b.assigned = false ∧
        d = dist2 b.center c ∧
        (∀ q ∈ pre, q.assigned = false → d < dist2 q.center c) ∧
        (∀ b0 d0, acc = some (b0, d0) → d < d0)) := by
  intro pieces
  induction pieces with
  | nil =>
    intro acc b d h
    left
    exact h
  | cons piece rest ih =>
    intro acc b d h
    rw [findBest] at h
    rcases betterPiece_eq c piece acc with ⟨hp, he⟩ | ⟨hp, hn, he⟩ | ⟨hp, b1, d1, hs, hsp⟩
    · -- piece assigned: accumulator unchanged
      rw [he] at h
      rcases ih _ _ _ h with hl | ⟨pre, suf, heq, hun, hd, hpre, hacc⟩
      · left
        exact hl
      · right
        refine ⟨piece :: pre, suf, by rw [heq, List.cons_append], hun, hd, ?_, hacc⟩
        intro q hq hqa
        rcases List.mem_cons.mp hq with rfl | hq2
        · rw [hp] at hqa
          exact absurd hqa (by simp)
        · exact hpre q hq2 hqa
    · -- acc was none, piece adopted
      rw [he] at h
      subst hn
      rcases ih _ _ _ h with hl | ⟨pre, suf, heq, hun, hd, hpre, hacc⟩
      · -- the adopted (piece, dist) survived the rest of the scan
        simp only [Option.some.injEq, Prod.mk.injEq] at hl
        obtain ⟨rfl, rfl⟩ := hl
        right
        refine ⟨[], rest, rfl, hp, rfl, ?_, ?_⟩
        · intro q hq
          simp at hq
        · intro b0 d0 h0
          exact absurd h0 (by simp)
      · -- a later piece won; it beat the accumulator (piece, dist)
        right
        have hlt := hacc piece (dist2 piece.center c) rfl
        refine ⟨piece :: pre, suf, by rw [heq, List.cons_append], hun, hd, ?_, ?_⟩
        · intro q hq hqa
          rcases List.mem_cons.mp hq with rfl | hq2
          · exact hlt
          · exact hpre q hq2 hqa
        · intro b0 d0 h0
          exact absurd h0 (by simp)
    · -- acc was some (b1, d1)
      obtain ⟨rfl⟩ : acc = some (b1, d1) := by rw [hs]
      rcases hsp with ⟨hlt, he⟩ | ⟨hge, he⟩
      · -- piece strictly better than the accumulator, adopted
        rw [he] at h
        rcases ih _ _ _ h with hl | ⟨pre, suf, heq, hun, hd, hpre, hacc⟩
        · simp only [Option.some.injEq, Prod.mk.injEq] at hl
          obtain ⟨rfl, rfl⟩ := hl
          right
          refine ⟨[], rest, rfl, hp, rfl, ?_, ?_⟩
          · intro q hq
            simp at hq
          · intro b0 d0 h0
            simp only [Option.some.injEq, Prod.mk.injEq] at h0
            obtain ⟨rfl, rfl⟩ := h0
            exact hlt
        · right
          have hlt2 := hacc piece (dist2 piece.center c) rfl
          refine ⟨piece :: pre, suf, by rw [heq, List.cons_append], hun, hd, ?_, ?_⟩
          · intro q hq hqa
            rcases List.mem_cons.mp hq with rfl | hq2
            · exact hlt2
            · exact hpre q hq2 hqa
          · intro b0 d0 h0
            simp only [Option.some.injEq, Prod.mk.injEq] at h0
            obtain ⟨rfl, rfl⟩ := h0
            exact lt_trans hlt2 hlt
      · -- accumulator kept
        rw [he] at h
        rcases ih _ _ _ h with hl | ⟨pre, suf, heq, hun, hd, hpre, hacc⟩
        · left
          exact hl
        · right
          refine ⟨piece :: pre, suf, by rw [heq, List.cons_append], hun, hd, ?_, ?_⟩
          · intro q hq hqa
            rcases List.mem_cons.mp hq with rfl | hq2
            · exact lt_of_lt_of_le (hacc b1 d1 rfl) hge
            · exact hpre q hq2 hqa
          · intro b0 d0 h0
            simp only [Option.some.injEq, Prod.mk.injEq] at h0
            obtain ⟨rfl, rfl⟩ := h0
            exact hacc b1 d1 rfl

/-! ### Properties of marking a piece as assigned -/

lemma markAssigned_of_not_mem (pieces : List Piece) (pid : ℕ)
    (h : pid ∉ pieces.map Piece.id) : markAssigned pieces pid = pieces := by
  unfold markAssigned
  have hq : ∀ q ∈ pieces, (if q.id = pid then { q with assigned := true } else q) = id q := by
    intro q hqm
    have hne : q.id ≠ pid := fun he => h (he ▸ List.mem_map_of_mem Piece.id hqm)
    simp [hne]
  rw [List.map_congr_left hq, List.map_id]

lemma markAssigned_map_id (pieces : List Piece) (pid : ℕ) :
    (markAssigned pieces pid).map Piece.id = pieces.map Piece.id := by
  unfold markAssigned
  rw [List.map_map]
  apply List.map_congr_left
  intro q _
  by_cases h : q.id = pid <;> simp [h]

lemma markAssigned_map_size (pieces : List Piece) (pid : ℕ) :
    (markAssigned pieces pid).map Piece.size = pieces.map Piece.size := by
  unfold markAssigned
  rw [List.map_map]
  apply List.map_congr_left
  intro q _
  by_cases h : q.id = pid <;> simp [h]

lemma markAssigned_decomp (pieces : List Piece) (b : Piece)
    (hb : b ∈ pieces) (hnd : (pieces.map Piece.id).Nodup) :
    ∃ pre suf, pieces = pre ++ b :: suf ∧
      markAssigned pieces b.id = pre ++ { b with assigned := true } :: suf := by
  obtain ⟨pre, suf, heq⟩ := List.append_of_mem hb
  subst heq
  refine ⟨pre, suf, rfl, ?_⟩
  rw [List.map_append, List.map_cons, List.nodup_append] at hnd
  obtain ⟨hnp, hns, hdisj⟩ := hnd
  have hpre : b.id ∉ pre.map Piece.id := fun hm => hdisj hm (by simp)
  have hsuf : b.id ∉ suf.map Piece.id := (List.nodup_cons.mp hns).1
  unfold markAssigned
  rw [List.map_append, List.map_cons, if_pos rfl]
  have e1 : (pre.map fun q => if q.id = b.id then { q with assigned := true } else q) = pre := by
    have := markAssigned_of_not_mem pre b.id hpre
    unfold markAssigned at this
    exact this
  have e2 : (suf.map fun q => if q.id = b.id then { q with assigned := true } else q) = suf := by
    have := markAssigned_of_not_mem suf b.id hsuf
    unfold markAssigned at this
    exact this
  rw [e1, e2]

lemma countUnassigned_markAssigned (pieces : List Piece) (b : Piece)
    (hb : b ∈ pieces) (hbu : b.assigned = false)
    (hnd : (pieces.map Piece.id).Nodup) :
    countUnassigned (markAssigned pieces b.id) = countUnassigned pieces - 1 ∧
      0 < countUnassigned pieces := by
  obtain ⟨pre, suf, heq, hmark⟩ := markAssigned_decomp pieces b hb hnd
  rw [hmark, heq]
  unfold countUnassigned
  rw [List.filter_append, List.filter_append, List.filter_cons, List.filter_cons]
  simp only [hbu, Bool.not_false, Bool.not_true]
  simp only [Bool.false_eq_true, if_false, if_true, List.length_append, List.length_cons]
  omega

lemma totalAssigned_markAssigned (pieces : List Piece) (b : Piece)
    (hb : b ∈ pieces) (hbu : b.assigned = false)
    (hnd : (pieces.map Piece.id).Nodup) :
    totalAssigned (markAssigned pieces b.id) = totalAssigned pieces + b.size := by
  obtain ⟨pre, suf, heq, hmark⟩ := markAssigned_decomp pieces b hb hnd
  rw [hmark, heq]
  unfold totalAssigned
  rw [List.filter_append, List.filter_append, List.filter_cons, List.filter_cons]
  simp only [hbu, Bool.false_eq_true, if_false, if_true]
  simp only [List.map_append, List.sum_append, List.map_cons, List.sum_cons]
  omega

lemma assignedIds_markAssigned (pieces : List Piece) (b : Piece)
    (hb : b ∈ pieces) (hbu : b.assigned = false)
    (hnd : (pieces.map Piece.id).Nodup) :
    (assignedIds (markAssigned pieces b.id)).Perm (b.id :: assignedIds pieces) := by
  obtain ⟨pre, suf, heq, hmark⟩ := markAssigned_decomp pieces b hb hnd
  rw [hmark, heq]
  unfold assignedIds
  rw [List.filter_append, List.filter_append, List.filter_cons, List.filter_cons]
  simp only [hbu, Bool.false_eq_true, if_false, if_true]
  simp only [List.map_append, List.map_cons]
  exact List.perm_middle

lemma all_assigned_of_count_zero {pieces : List Piece}
    (h : countUnassigned pieces = 0) : ∀ p ∈ pieces, p.assigned = true := by
  intro p hp
  unfold countUnassigned at h
  have hf := List.length_eq_zero.mp h
  by_contra hc
  have hpu : p.assigned = false := by simpa using hc
  have : p ∈ pieces.filter fun q => !q.assigned :=
    List.mem_filter.mpr ⟨hp, by rw [hpu]; rfl⟩
  rw [hf] at this
  simp at this

lemma exists_unassigned_of_pos {pieces : List Piece}
    (h : 0 < countUnassigned pieces) : ∃ p ∈ pieces, p.assigned = false := by
  unfold countUnassigned at h
  obtain ⟨p, hp⟩ := List.exists_mem_of_length_pos h
  have := List.mem_filter.mp hp
  exact ⟨p, this.1, by simpa using this.2⟩

lemma countUnassigned_eq_length {pieces : List Piece}
    (h : ∀ p ∈ pieces, p.assigned = false) : countUnassigned pieces = pieces.length := by
  unfold countUnassigned
  rw [List.filter_eq_self.mpr]
  intro p hp
  rw [h p hp]
  rfl

/-! ### Properties of one loop iteration -/

lemma findBest_some_of_pos (c : ℚ × ℚ) (pieces : List Piece)
    (h : 0 < countUnassigned pieces) :
    ∃ b d, findBest c pieces none = some (b, d) ∧ b ∈ pieces ∧ b.assigned = false ∧
      d = dist2 b.center c := by
  cases hc : findBest c pieces none with
  | none =>
    obtain ⟨_, hall⟩ := findBest_none c pieces none hc
    obtain ⟨p, hp, hpu⟩ := exists_unassigned_of_pos h
    rw [hall p hp] at hpu
    simp at hpu
  | some pr =>
    obtain ⟨b, d⟩ := pr
    rcases findBest_priority c pieces none b d hc with hl | ⟨pre, suf, heq, hun, hd, _, _⟩
    · simp at hl
    · exact ⟨b, d, rfl, by
        rw [heq]
        exact List.mem_append_right _ (List.mem_cons_self _ _), hun, hd⟩

lemma step_of_findBest (st : AssignState) (b : Piece) (d : ℚ)
    (hf : findBest (st.person_coords_proj.getD (selectPerson st.person_load) (0, 0))
      st.puzzle_pieces none = some (b, d)) :
    step st =
      { puzzle_pieces := markAssigned st.puzzle_pieces b.id
        person_load := st.person_load.set (selectPerson st.person_load)
          (st.person_load.getD (selectPerson st.person_load) 0 + b.size)
        person_assignments := st.person_assignments.set (selectPerson st.person_load)
          (st.person_assignments.getD (selectPerson st.person_load) [] ++ [b.id])
        person_coords_proj := st.person_coords_proj.set (selectPerson st.person_load)
          ((st.person_coords_proj.getD (selectPerson st.person_load) (0, 0)).1 * (9 / 10)
              + b.center.1 * (1 / 10),
           (st.person_coords_proj.getD (selectPerson st.person_load) (0, 0)).2 * (9 / 10)
              + b.center.2 * (1 / 10)) } := by
  simp only [step, hf]

lemma step_of_none (st : AssignState)
    (hf : findBest (st.person_coords_proj.getD (selectPerson st.person_load) (0, 0))
      st.puzzle_pieces none = none) : step st = st := by
  simp only [step, hf]

lemma step_of_count_zero (st : AssignState)
    (h : countUnassigned st.puzzle_pieces = 0) : step st = st :=
  step_of_none st (findBest_all_assigned _ _ _ (all_assigned_of_count_zero h))

lemma step_map_id (st : AssignState) :
    (step st).puzzle_pieces.map Piece.id = st.puzzle_pieces.map Piece.id := by
  cases hf : findBest (st.person_coords_proj.getD (selectPerson st.person_load) (0, 0))
      st.puzzle_pieces none with
  | none => rw [step_of_none st hf]
  | some pr =>
    obtain ⟨b, d⟩ := pr
    rw [step_of_findBest st b d hf]
    exact markAssigned_map_id _ _

lemma step_map_size (st : AssignState) :
    (step st).puzzle_pieces.map Piece.size = st.puzzle_pieces.map Piece.size := by
  cases hf : findBest (st.person_coords_proj.getD (selectPerson st.person_load) (0, 0))
      st.puzzle_pieces none with
  | none => rw [step_of_none st hf]
  | some pr =>
    obtain ⟨b, d⟩ := pr
    rw [step_of_findBest st b d hf]
    exact markAssigned_map_size _ _

lemma step_load_length (st : AssignState) :
    (step st).person_load.length = st.person_load.length := by
  cases hf : findBest (st.person_coords_proj.getD (selectPerson st.person_load) (0, 0))
      st.puzzle_pieces none with
  | none => rw [step_of_none st hf]
  | some pr =>
    obtain ⟨b, d⟩ := pr
    rw [step_of_findBest st b d hf]
    exact List.length_set _ _ _

lemma step_assignments_length (st : AssignState) :
    (step st).person_assignments.length = st.person_assignments.length := by
  cases hf : findBest (st.person_coords_proj.getD (selectPerson st.person_load) (0, 0))
      st.puzzle_pieces none with
  | none => rw [step_of_none st hf]
  | some pr =>
    obtain ⟨b, d⟩ := pr
    rw [step_of_findBest st b d hf]
    exact List.length_set _ _ _

lemma step_count (st : AssignState)
    (hnd : (st.puzzle_pieces.map Piece.id).Nodup)
    (h : 0 < countUnassigned st.puzzle_pieces) :
    countUnassigned (step st).puzzle_pieces = countUnassigned st.puzzle_pieces - 1 := by
  obtain ⟨b, d, hf, hbm, hbu, _⟩ :=
    findBest_some_of_pos (st.person_coords_proj.getD (selectPerson st.person_load) (0, 0))
      st.puzzle_pieces h
  rw [step_of_findBest st b d hf]
  exact (countUnassigned_markAssigned st.puzzle_pieces b hbm hbu hnd).1

lemma assignLoop_map_id (n : ℕ) (st : AssignState) :
    (assignLoop n st).puzzle_pieces.map Piece.id = st.puzzle_pieces.map Piece.id := by
  induction n generalizing st with
  | zero => rfl
  | succ n ih => rw [assignLoop, ih, step_map_id]

lemma assignLoop_map_size (n : ℕ) (st : AssignState) :
    (assignLoop n st).puzzle_pieces.map Piece.size = st.puzzle_pieces.map Piece.size := by
  induction n generalizing st with
  | zero => rfl
  | succ n ih => rw [assignLoop, ih, step_map_size]

lemma assignLoop_load_length (n : ℕ) (st : AssignState) :
    (assignLoop n st).person_load.length = st.person_load.length := by
  induction n generalizing st with
  | zero => rfl
  | succ n ih => rw [assignLoop, ih, step_load_length]

lemma assignLoop_assignments_length (n : ℕ) (st : AssignState) :
    (assignLoop n st).person_assignments.length = st.person_assignments.length := by
  induction n generalizing st with
  | zero => rfl
  | succ n ih => rw [assignLoop, ih, step_assignments_length]

lemma assignLoop_count (n : ℕ) (st : AssignState)
    (hnd : (st.puzzle_pieces.map Piece.id).Nodup) :
    countUnassigned (assignLoop n st).puzzle_pieces
      = countUnassigned st.puzzle_pieces - n := by
  induction n generalizing st with
  | zero => rfl
  | succ n ih =>
    rw [assignLoop]
    have hnd' : ((step st).puzzle_pieces.map Piece.id).Nodup := by
      rw [step_map_id]
      exact hnd
    rcases Nat.eq_zero_or_pos (countUnassigned st.puzzle_pieces) with hz | hp
    · rw [step_of_count_zero st hz, ih st hnd, hz]
      omega
    · rw [ih (step st) hnd', step_count st hnd hp]
      omega

/-! ### The fairness invariant -/

lemma size_le_maxSize {pieces : List Piece} {p : Piece} (hp : p ∈ pieces) :
    p.size ≤ maxSize pieces :=
  le_foldr_max (List.mem_map_of_mem Piece.size hp)

lemma step_fairInv (M : ℕ) (st : AssignState) (h : FairInv M st) : FairInv M (step st) := by
  obtain ⟨hsz, hne, hbal⟩ := h
  cases hf : findBest (st.person_coords_proj.getD (selectPerson st.person_load) (0, 0))
      st.puzzle_pieces none with
  | none =>
    rw [step_of_none st hf]
    exact ⟨hsz, hne, hbal⟩
  | some pr =>
    obtain ⟨b, d⟩ := pr
    have hbm : b ∈ st.puzzle_pieces := by
      rcases findBest_priority _ _ _ _ _ hf with hl | ⟨pre, suf, heq, _, _, _, _⟩
      · simp at hl
      · rw [heq]
        exact List.mem_append_right _ (List.mem_cons_self _ _)
    have hbM : b.size ≤ M := hsz b hbm
    have hslt : selectPerson st.person_load < st.person_load.length := selectPerson_lt hne
    rw [step_of_findBest st b d hf]
    refine ⟨?_, ?_, ?_⟩
    · intro p hp
      have hms : p.size ∈ (markAssigned st.puzzle_pieces b.id).map Piece.size :=
        List.mem_map_of_mem _ hp
      rw [markAssigned_map_size] at hms
      obtain ⟨q, hq, hqe⟩ := List.mem_map.mp hms
      rw [← hqe]
      exact hsz q hq
    · intro hnil
      apply hne
      have hlen := congrArg List.length hnil
      rw [List.length_set] at hlen
      exact List.length_eq_zero.mp hlen
    · intro i j hi hj
      rw [List.length_set] at hi hj
      by_cases his : selectPerson st.person_load = i <;>
        by_cases hjs : selectPerson st.person_load = j
      · rw [← his, ← hjs, getD_set_same _ _ _ _ hslt]
        omega
      · rw [← his, getD_set_same _ _ _ _ hslt, getD_set_other _ _ _ _ _ hjs]
        have h1 := selectPerson_min hne j hj
        omega
      · rw [← hjs, getD_set_same _ _ _ _ hslt, getD_set_other _ _ _ _ _ his]
        have h1 := hbal i (selectPerson st.person_load) hi hslt
        omega
      · rw [getD_set_other _ _ _ _ _ his, getD_set_other _ _ _ _ _ hjs]
        exact hbal i j hi hj

lemma assignLoop_fairInv (M : ℕ) (n : ℕ) (st : AssignState) (h : FairInv M st) :
    FairInv M (assignLoop n st) := by
  induction n generalizing st with
  | zero => exact h
  | succ n ih => exact ih (step st) (step_fairInv M st h)

/-! ### The coverage and load-conservation invariant -/

lemma step_massInv (st : AssignState) (h : MassInv st) : MassInv (step st) := by
  obtain ⟨hne, hlen, hnd, hperm, hsum⟩ := h
  cases hf : findBest (st.person_coords_proj.getD (selectPerson st.person_load) (0, 0))
      st.puzzle_pieces none with
  | none =>
    rw [step_of_none st hf]
    exact ⟨hne, hlen, hnd, hperm, hsum⟩
  | some pr =>
    obtain ⟨b, d⟩ := pr
    obtain ⟨hbm, hbu⟩ : b ∈ st.puzzle_pieces ∧ b.assigned = false := by
      rcases findBest_priority _ _ _ _ _ hf with hl | ⟨pre, suf, heq, hun, _, _, _⟩
      · simp at hl
      · exact ⟨by rw [heq]; exact List.mem_append_right _ (List.mem_cons_self _ _), hun⟩
    have hslt : selectPerson st.person_load < st.person_load.length := selectPerson_lt hne
    have hslt' : selectPerson st.person_load < st.person_assignments.length := by
      rw [hlen]
      exact hslt
    rw [step_of_findBest st b d hf]
    refine ⟨?_, ?_, ?_, ?_, ?_⟩
    · intro hnil
      apply hne
      have hl2 := congrArg List.length hnil
      rw [List.length_set] at hl2
      exact List.length_eq_zero.mp hl2
    · rw [List.length_set, List.length_set, hlen]
    · rw [markAssigned_map_id]
      exact hnd
    · have h1 := flatten_set_append_perm st.person_assignments
        (selectPerson st.person_load) b.id hslt'
      have h2 := assignedIds_markAssigned st.puzzle_pieces b hbm hbu hnd
      exact h1.trans ((hperm.cons b.id).trans h2.symm)
    · rw [sum_set_getD_add _ _ _ hslt, hsum,
        totalAssigned_markAssigned st.puzzle_pieces b hbm hbu hnd]

lemma assignLoop_massInv (n : ℕ) (st : AssignState) (h : MassInv st) :
    MassInv (assignLoop n st) := by
  induction n generalizing st with
  | zero => exact h
  | succ n ih => exact ih (step st) (step_massInv st h)

/-! ### Initial state and end of loop -/

lemma getD_map_zero (starts : List (ℚ × ℚ)) (t : ℕ) :
    ((starts.map fun _ => (0 : ℕ)).getD t 0) = 0 := by
  by_cases ht : t < starts.length
  · rw [List.getD_eq_getElem _ _ (by simpa using ht)]
    simp
  · rw [List.getD_eq_default _ _ (by simpa using Nat.le_of_not_lt ht)]

lemma map_ne_nil {α β : Type} {l : List α} (f : α → β) (h : l ≠ []) : l.map f ≠ [] := by
  intro hc
  exact h (List.map_eq_nil_iff.mp hc)

lemma flatten_map_nil {α : Type} (l : List α) :
    (l.map fun _ => ([] : List ℕ)).flatten = [] := by
  induction l with
  | nil => rfl
  | cons a t ih =>
    rw [List.map_cons, List.flatten_cons, List.nil_append]
    exact ih

lemma sum_map_zero {α : Type} (l : List α) : (l.map fun _ => (0 : ℕ)).sum = 0 := by
  induction l with
  | nil => rfl
  | cons a t ih =>
    rw [List.map_cons, List.sum_cons, ih]

lemma initState_fairInv (pieces : List Piece) (starts : List (ℚ × ℚ))
    (hne : starts ≠ []) : FairInv (maxSize pieces) (initState pieces starts) := by
  refine ⟨fun p hp => size_le_maxSize hp, map_ne_nil _ hne, ?_⟩
  intro i j hi hj
  show ((starts.map fun _ => (0 : ℕ)).getD i 0) ≤ ((starts.map fun _ => (0 : ℕ)).getD j 0) + _
  rw [getD_map_zero, getD_map_zero]
  omega

lemma initState_massInv (pieces : List Piece) (starts : List (ℚ × ℚ))
    (hne : starts ≠ []) (hnd : (pieces.map Piece.id).Nodup)
    (hun : ∀ p ∈ pieces, p.assigned = false) : MassInv (initState pieces starts) := by
  have hfil : pieces.filter Piece.assigned = [] := by
    rw [List.filter_eq_nil_iff]
    intro p hp
    rw [hun p hp]
    simp
  refine ⟨map_ne_nil _ hne, by simp [initState], hnd, ?_, ?_⟩
  · show ((starts.map fun _ => ([] : List ℕ)).flatten).Perm (assignedIds pieces)
    rw [flatten_map_nil]
    unfold assignedIds
    rw [hfil]
    rfl
  · show (starts.map fun _ => (0 : ℕ)).sum = totalAssigned pieces
    rw [sum_map_zero]
    unfold totalAssigned
    rw [hfil]
    rfl

lemma runAssignment_all_assigned (st : AssignState)
    (hnd : (st.puzzle_pieces.map Piece.id).Nodup) :
    ∀ p ∈ (runAssignment st).puzzle_pieces, p.assigned = true := by
  apply all_assigned_of_count_zero
  unfold runAssignment
  rw [assignLoop_count _ _ hnd]
  omega

lemma assignedIds_of_all_assigned {pieces : List Piece}
    (h : ∀ p ∈ pieces, p.assigned = true) : assignedIds pieces = pieces.map Piece.id := by
  unfold assignedIds
  rw [List.filter_eq_self.mpr h]

lemma totalAssigned_of_all_assigned {pieces : List Piece}
    (h : ∀ p ∈ pieces, p.assigned = true) : totalAssigned pieces = totalSize pieces := by
  unfold totalAssigned totalSize
  rw [List.filter_eq_self.mpr h]

lemma runAssignment_final (pieces : List Piece) (starts : List (ℚ × ℚ))
    (hne : starts ≠ []) (hnd : (pieces.map Piece.id).Nodup)
    (hun : ∀ p ∈ pieces, p.assigned = false) :
    ((runAssignment (initState pieces starts)).person_assignments.flatten).Perm
        (pieces.map Piece.id) ∧
      (runAssignment (initState pieces starts)).person_load.sum = totalSize pieces ∧
      (runAssignment (initState pieces starts)).person_assignments.length = starts.length := by
  have hrw : runAssignment (initState pieces starts)
      = assignLoop (countUnassigned pieces) (initState pieces starts) := rfl
  have hmi := assignLoop_massInv (countUnassigned pieces) (initState pieces starts)
    (initState_massInv pieces starts hne hnd hun)
  obtain ⟨_, hlen, _, hperm, hsum⟩ := hmi
  have hall : ∀ p ∈ (runAssignment (initState pieces starts)).puzzle_pieces,
      p.assigned = true := runAssignment_all_assigned (initState pieces starts) hnd
  have hmapid : (runAssignment (initState pieces starts)).puzzle_pieces.map Piece.id
      = pieces.map Piece.id := by
    rw [hrw, assignLoop_map_id]
    rfl
  have hmapsize : (runAssignment (initState pieces starts)).puzzle_pieces.map Piece.size
      = pieces.map Piece.size := by
    rw [hrw, assignLoop_map_size]
    rfl
  refine ⟨?_, ?_, ?_⟩
  · have he := assignedIds_of_all_assigned hall
    rw [hrw] at he
    rw [hrw]
    rw [he, ← hrw, hmapid] at hperm
    exact hperm
  · rw [hrw] at hall ⊢
    rw [hsum, totalAssigned_of_all_assigned hall]
    unfold totalSize
    rw [← hrw, hmapsize]
  · rw [hrw, assignLoop_assignments_length]
    simp [initState]

/-! ### Exactly-one-owner helpers -/

lemma flatten_nodup_unique {A : List (List ℕ)} (hnd : A.flatten.Nodup)
    {x a b : ℕ} (ha : a < A.length) (hb : b < A.length)
    (hxa : x ∈ A.getD a []) (hxb : x ∈ A.getD b []) : a = b := by
  induction A generalizing a b with
  | nil => simp at ha
  | cons l t ih =>
    rw [List.flatten_cons, List.nodup_append] at hnd
    obtain ⟨hl, ht, hdisj⟩ := hnd
    cases a with
    | zero =>
      cases b with
      | zero => rfl
      | succ b' =>
        exfalso
        have hb' : b' < t.length := by simpa using hb
        have hxt : x ∈ t.flatten := by
          apply List.mem_flatten.mpr
          refine ⟨t.getD b' [], ?_, by simpa using hxb⟩
          rw [List.getD_eq_getElem _ _ hb']
          exact List.getElem_mem _
        exact hdisj (by simpa using hxa) hxt
    | succ a' =>
      cases b with
      | zero =>
        exfalso
        have ha' : a' < t.length := by simpa using ha
        have hxt : x ∈ t.flatten := by
          apply List.mem_flatten.mpr
          refine ⟨t.getD a' [], ?_, by simpa using hxa⟩
          rw [List.getD_eq_getElem _ _ ha']
          exact List.getElem_mem _
        exact hdisj (by simpa using hxb) hxt
      | succ b' =>
        have ha' : a' < t.length := by simpa using ha
        have hb' : b' < t.length := by simpa using hb
        have := ih ht ha' hb' (by simpa using hxa) (by simpa using hxb)
        omega

lemma flatten_mem_idx {A : List (List ℕ)} {x : ℕ} (hx : x ∈ A.flatten) :
    ∃ a, a < A.length ∧ x ∈ A.getD a [] := by
  obtain ⟨l, hl, hxl⟩ := List.mem_flatten.mp hx
  obtain ⟨i, hi, he⟩ := List.mem_iff_getElem.mp hl
  refine ⟨i, hi, ?_⟩
  rw [List.getD_eq_getElem _ _ hi, he]
  exact hxl

lemma micro_to_person_total {A : List (List ℕ)} {x : ℕ}
    (hx : ∃ a, a < A.length ∧ x ∈ A.getD a []) :
    ∃ c, micro_to_person A x = some c ∧ c < A.length ∧ x ∈ A.getD c [] := by
  unfold micro_to_person
  obtain ⟨a, ha, hxa⟩ := hx
  cases hc : (List.range A.length).find? (fun c => (A.getD c []).contains x) with
  | none =>
    exfalso
    have hnone := List.find?_eq_none.mp hc a (List.mem_range.mpr ha)
    simp only [List.contains, List.elem_eq_mem, decide_eq_true_eq] at hnone
    exact hnone hxa
  | some c =>
    have h1 := List.find?_some hc
    have h2 := List.mem_of_find?_eq_some hc
    simp only [List.contains, List.elem_eq_mem, decide_eq_true_eq] at h1
    exact ⟨c, rfl, List.mem_range.mp h2, h1⟩

/-! ### Properties of the generated piece table -/

lemma mkPieces_map_id (X : List (ℚ × ℚ)) (labels : List ℕ) (P : ℕ) :
    (mkPieces X labels P).map Piece.id = List.range P := by
  unfold mkPieces
  rw [List.map_map]
  have h : ∀ i ∈ List.range P, (Piece.id ∘ fun i =>
      ({ id := i,
         center := centroid (((X.zip labels).filter fun xl => xl.2 == i).map Prod.fst),
         size := (((X.zip labels).filter fun xl => xl.2 == i).map Prod.fst).length,
         assigned := false } : Piece)) i = id i := fun i _ => rfl
  rw [List.map_congr_left h, List.map_id]

lemma mkPieces_unassigned (X : List (ℚ × ℚ)) (labels : List ℕ) (P : ℕ) :
    ∀ p ∈ mkPieces X labels P, p.assigned = false := by
  intro p hp
  obtain ⟨i, _, he⟩ := List.mem_map.mp hp
  rw [← he]

lemma totalSize_mkPieces (X : List (ℚ × ℚ)) (labels : List ℕ) (P : ℕ)
    (hlen : labels.length = X.length) (hlab : ∀ l ∈ labels, l < P) :
    totalSize (mkPieces X labels P) = X.length := by
  unfold totalSize mkPieces
  rw [List.map_map]
  have h : ∀ i ∈ List.range P, (Piece.size ∘ fun i =>
      ({ id := i,
         center := centroid (((X.zip labels).filter fun xl => xl.2 == i).map Prod.fst),
         size := (((X.zip labels).filter fun xl => xl.2 == i).map Prod.fst).length,
         assigned := false } : Piece)) i = (fun i => labels.count i) i := by
    intro i _
    show (((X.zip labels).filter fun xl => xl.2 == i).map Prod.fst).length = labels.count i
    rw [List.length_map, ← List.countP_eq_length_filter]
    have hc : List.countP (fun xl => xl.2 == i) (X.zip labels)
        = List.countP (fun x => x == i) ((X.zip labels).map Prod.snd) := by
      rw [List.countP_map]
      rfl
    rw [hc, List.map_snd_zip _ _ (by omega)]
    rfl
  rw [List.map_congr_left h]
  show (∑ i ∈ Finset.range P, labels.count i) = X.length
  rw [sum_range_count labels P hlab, hlen]

lemma assignLoop_succ (n : ℕ) (st : AssignState) :
    assignLoop (n + 1) st = step (assignLoop n st) := by
  induction n generalizing st with
  | zero => rfl
  | succ n ih =>
    show assignLoop (n + 1) (step st) = _
    rw [ih (step st)]
    rfl

lemma runAssignment_load_length (pieces : List Piece) (starts : List (ℚ × ℚ)) :
    (runAssignment (initState pieces starts)).person_load.length = starts.length := by
  show (assignLoop _ _).person_load.length = _
  rw [assignLoop_load_length]
  simp [initState]

/-! ### The claims -/

/-- Claim C4: in every iteration of the assignment loop the person selected by
`sorted(person_names, key=load)[0]` is a valid index carrying a minimal
current load, and among the persons sharing that minimal load the one declared
earliest wins: every strictly earlier person has a strictly larger load. -/
theorem least_loaded_selection (st : AssignState) (hne : st.person_load ≠ []) :
    selectPerson st.person_load < st.person_load.length ∧
      (∀ j, j < st.person_load.length →
        st.person_load.getD (selectPerson st.person_load) 0 ≤ st.person_load.getD j 0) ∧
      (∀ j, j < selectPerson st.person_load →
        st.person_load.getD (selectPerson st.person_load) 0 < st.person_load.getD j 0) :=
  ⟨selectPerson_lt hne, fun j hj => selectPerson_min hne j hj,
    fun j hj => selectPerson_first hne j hj⟩

/-- Witness for C4 on the loads `[3, 1, 1]`: person 1 is selected (the first
of the two tied persons with load 1), and person 0 carries a strictly larger
load. -/
theorem least_loaded_selection_witness :
    selectPerson loadState.person_load < loadState.person_load.length ∧
      loadState.person_load.getD (selectPerson loadState.person_load) 0
        ≤ loadState.person_load.getD 2 0 ∧
      loadState.person_load.getD (selectPerson loadState.person_load) 0
        < loadState.person_load.getD 0 0 :=
  ⟨(least_loaded_selection loadState (by decide)).1,
    (least_loaded_selection loadState (by decide)).2.1 2 (by decide),
    (least_loaded_selection loadState (by decide)).2.2 0 (by decide)⟩

/-- Claim C5: the piece chosen by the nearest-piece scan is an unassigned
piece of the table whose centroid is at minimal (squared) Euclidean distance
from the selected person's current anchor, and among equally distant
unassigned pieces the one with the lowest stable id wins (the table is kept in
increasing id order). -/
theorem nearest_piece_selection (st : AssignState) (b : Piece) (d : ℚ)
    (hsorted : st.puzzle_pieces.Pairwise fun p q => p.id < q.id)
    (hf : findBest (st.person_coords_proj.getD (selectPerson st.person_load) (0, 0))
        st.puzzle_pieces none = some (b, d)) :
    b ∈ st.puzzle_pieces ∧ b.assigned = false ∧
      d = dist2 b.center (st.person_coords_proj.getD (selectPerson st.person_load) (0, 0)) ∧
      ∀ q ∈ st.puzzle_pieces, q.assigned = false →
        d ≤ dist2 q.center (st.person_coords_proj.getD (selectPerson st.person_load) (0, 0)) ∧
          (dist2 q.center (st.person_coords_proj.getD (selectPerson st.person_load) (0, 0)) = d →
            b.id ≤ q.id) := by
  rcases findBest_priority _ _ _ _ _ hf with hl | ⟨pre, suf, heq, hun, hd, hpre, _⟩
  · simp at hl
  have hbm : b ∈ st.puzzle_pieces := by
    rw [heq]
    exact List.mem_append_right _ (List.mem_cons_self _ _)
  refine ⟨hbm, hun, hd, ?_⟩
  intro q hq hqa
  refine ⟨findBest_le _ _ _ _ _ hf q hq hqa, ?_⟩
  intro hqd
  rw [heq] at hq hsorted
  rcases List.mem_append.mp hq with hqpre | hqbs
  · exfalso
    have := hpre q hqpre hqa
    rw [hqd] at this
    exact lt_irrefl d this
  · rcases List.mem_cons.mp hqbs with rfl | hqsuf
    · exact le_refl _
    · rw [List.pairwise_append] at hsorted
      have h2 := hsorted.2.1
      rw [List.pairwise_cons] at h2
      exact le_of_lt (h2.1 q hqsuf)

/-- Witness for C5 on `tieState`: pieces at x = 1 and x = -1 are both at
squared distance 1 from the anchor at the origin; the scan returns the piece
with id 0. -/
theorem nearest_piece_selection_witness :
    tiePieceA ∈ tieState.puzzle_pieces ∧ tiePieceA.assigned = false ∧
      (1 : ℚ) = dist2 tiePieceA.center
        (tieState.person_coords_proj.getD (selectPerson tieState.person_load) (0, 0)) ∧
      (1 : ℚ) ≤ dist2 tiePieceB.center
        (tieState.person_coords_proj.getD (selectPerson tieState.person_load) (0, 0)) ∧
      (dist2 tiePieceB.center
          (tieState.person_coords_proj.getD (selectPerson tieState.person_load) (0, 0)) = 1 →
        tiePieceA.id ≤ tiePieceB.id) := by
  have hf : findBest (tieState.person_coords_proj.getD (selectPerson tieState.person_load) (0, 0))
      tieState.puzzle_pieces none = some (tiePieceA, 1) := by
    norm_num [tieState, tiePieceA, tiePieceB, selectPerson, sorted_persons, findBest,
      betterPiece, dist2, List.insertionSort, List.orderedInsert]
  have hsorted : tieState.puzzle_pieces.Pairwise fun p q => p.id < q.id := by
    unfold tieState
    exact List.Pairwise.cons (by intro q hq; rw [List.mem_singleton] at hq; subst hq; decide)
      (List.Pairwise.cons (by intro q hq; simp at hq) List.Pairwise.nil)
  have h := nearest_piece_selection tieState tiePieceA 1 hsorted hf
  have hbmem : tiePieceB ∈ tieState.puzzle_pieces :=
    List.mem_cons_of_mem _ (List.mem_cons_self _ _)
  exact ⟨h.1, h.2.1, h.2.2.1, (h.2.2.2 tiePieceB hbmem rfl).1, (h.2.2.2 tiePieceB hbmem rfl).2⟩

/-- Claim C6: anchors start at the persons' start coordinates, and an
iteration that assigns piece `b` to the selected person replaces only that
person's anchor, with exactly `0.9 * old + 0.1 * b.center`. -/
theorem anchor_update (pieces : List Piece) (starts : List (ℚ × ℚ))
    (st : AssignState) (b : Piece) (d : ℚ) (hne : st.person_load ≠ [])
    (hlen : st.person_coords_proj.length = st.person_load.length)
    (hf : findBest (st.person_coords_proj.getD (selectPerson st.person_load) (0, 0))
        st.puzzle_pieces none = some (b, d)) :
    (initState pieces starts).person_coords_proj = starts ∧
      (step st).person_coords_proj.getD (selectPerson st.person_load) (0, 0)
        = (9 / 10 * (st.person_coords_proj.getD (selectPerson st.person_load) (0, 0)).1
              + 1 / 10 * b.center.1,
           9 / 10 * (st.person_coords_proj.getD (selectPerson st.person_load) (0, 0)).2
              + 1 / 10 * b.center.2) ∧
      ∀ j, j ≠ selectPerson st.person_load →
        (step st).person_coords_proj.getD j (0, 0) = st.person_coords_proj.getD j (0, 0) := by
  refine ⟨rfl, ?_, ?_⟩
  · rw [step_of_findBest st b d hf]
    show ((st.person_coords_proj.set (selectPerson st.person_load) _).getD
      (selectPerson st.person_load) (0, 0)) = _
    rw [getD_set_same _ _ _ _ (by rw [hlen]; exact selectPerson_lt hne)]
    refine Prod.ext ?_ ?_ <;> ring
  · intro j hj
    rw [step_of_findBest st b d hf]
    exact getD_set_other _ _ _ _ _ fun he => hj he.symm

/-- Witness for C6 on `tieState`: the single person's anchor moves from the
origin to `0.9 * (0,0) + 0.1 * (1,0)`; instantiating the frame condition at
the out-of-range index 1 leaves that anchor untouched. -/
theorem anchor_update_witness :
    (initState wPieces wStarts).person_coords_proj = wStarts ∧
      (step tieState).person_coords_proj.getD (selectPerson tieState.person_load) (0, 0)
        = (9 / 10 * (tieState.person_coords_proj.getD
              (selectPerson tieState.person_load) (0, 0)).1 + 1 / 10 * tiePieceA.center.1,
           9 / 10 * (tieState.person_coords_proj.getD
              (selectPerson tieState.person_load) (0, 0)).2 + 1 / 10 * tiePieceA.center.2) ∧
      (step tieState).person_coords_proj.getD 1 (0, 0)
        = tieState.person_coords_proj.getD 1 (0, 0) := by
  have hf : findBest (tieState.person_coords_proj.getD (selectPerson tieState.person_load) (0, 0))
      tieState.puzzle_pieces none = some (tiePieceA, 1) := by
    norm_num [tieState, tiePieceA, tiePieceB, selectPerson, sorted_persons, findBest,
      betterPiece, dist2, List.insertionSort, List.orderedInsert]
  have h := anchor_update wPieces wStarts tieState tiePieceA 1 (by decide) (by decide) hf
  refine ⟨h.1, h.2.1, h.2.2 1 ?_⟩
  decide

/-- Claim C7: the greedy assignment core is a pure function of its inputs:
two runs on equal piece tables and equal start lists produce the same final
state, in particular the same per-person piece-id lists and the same final
loads (there is no randomness in the loop). -/
theorem deterministic_assignment (pieces1 pieces2 : List Piece)
    (starts1 starts2 : List (ℚ × ℚ)) (hp : pieces1 = pieces2) (hs : starts1 = starts2) :
    runAssignment (initState pieces1 starts1) = runAssignment (initState pieces2 starts2) ∧
      (runAssignment (initState pieces1 starts1)).person_assignments
        = (runAssignment (initState pieces2 starts2)).person_assignments ∧
      (runAssignment (initState pieces1 starts1)).person_load
        = (runAssignment (initState pieces2 starts2)).person_load := by
  subst hp
  subst hs
  exact ⟨rfl, rfl, rfl⟩

/-- Witness for C7: two runs on the two-actor example coincide. -/
theorem deterministic_assignment_witness :
    runAssignment (initState wPieces wStarts) = runAssignment (initState wPieces wStarts) ∧
      (runAssignment (initState wPieces wStarts)).person_assignments
        = (runAssignment (initState wPieces wStarts)).person_assignments ∧
      (runAssignment (initState wPieces wStarts)).person_load
        = (runAssignment (initState wPieces wStarts)).person_load :=
  deterministic_assignment wPieces wPieces wStarts wStarts rfl rfl

/-- Claim C1: at termination of the greedy loop, any two persons' loads
differ by at most the largest piece size of the run (in which every piece gets
assigned). -/
theorem fairness_bound (pieces : List Piece) (starts : List (ℚ × ℚ))
    (hne : starts ≠ []) (hpos : ∀ p ∈ pieces, 0 < p.size)
    (hun : ∀ p ∈ pieces, p.assigned = false)
    (i j : ℕ) (hi : i < starts.length) (hj : j < starts.length) :
    |((runAssignment (initState pieces starts)).person_load.getD i 0 : ℤ)
        - ((runAssignment (initState pieces starts)).person_load.getD j 0 : ℤ)|
      ≤ (maxSize pieces : ℤ) := by
  have hrw : runAssignment (initState pieces starts)
      = assignLoop (countUnassigned pieces) (initState pieces starts) := rfl
  obtain ⟨_, _, hbal⟩ := assignLoop_fairInv (maxSize pieces) (countUnassigned pieces)
    (initState pieces starts) (initState_fairInv pieces starts hne)
  have hlen := runAssignment_load_length pieces starts
  rw [hrw] at hlen
  rw [hrw]
  have h1 := hbal i j (by omega) (by omega)
  have h2 := hbal j i (by omega) (by omega)
  rw [abs_sub_le_iff]
  constructor <;> omega

/-- Witness for C1 on the two-actor example: the final loads differ by at
most the largest piece size 2. -/
theorem fairness_bound_witness :
    |((runAssignment (initState wPieces wStarts)).person_load.getD 0 0 : ℤ)
        - ((runAssignment (initState wPieces wStarts)).person_load.getD 1 0 : ℤ)|
      ≤ (maxSize wPieces : ℤ) :=
  fairness_bound wPieces wStarts (by decide)
    (by
      intro p hp
      simp only [wPieces, List.mem_cons, List.not_mem_nil, or_false] at hp
      rcases hp with rfl | rfl <;> decide)
    (by
      intro p hp
      simp only [wPieces, List.mem_cons, List.not_mem_nil, or_false] at hp
      rcases hp with rfl | rfl <;> rfl)
    0 1 (by decide) (by decide)

/-- Claim C3: the loop terminates after exactly P iterations where P is the
piece count: with fresh pieces the unassigned count starts at P, after m ≤ P
iterations exactly P - m pieces remain, the count is still positive before
each of the first P iterations and each such iteration decreases it by exactly
one, and after P iterations (the fuel of `runAssignment`) it is zero. -/
theorem termination_in_piece_count (pieces : List Piece) (starts : List (ℚ × ℚ))
    (hnd : (pieces.map Piece.id).Nodup) (hun : ∀ p ∈ pieces, p.assigned = false) :
    countUnassigned pieces = pieces.length ∧
      countUnassigned (runAssignment (initState pieces starts)).puzzle_pieces = 0 ∧
      (∀ m, m ≤ pieces.length →
        countUnassigned (assignLoop m (initState pieces starts)).puzzle_pieces
          = pieces.length - m) ∧
      ∀ m, m < pieces.length →
        0 < countUnassigned (assignLoop m (initState pieces starts)).puzzle_pieces ∧
          countUnassigned (step (assignLoop m (initState pieces starts))).puzzle_pieces
            = countUnassigned (assignLoop m (initState pieces starts)).puzzle_pieces - 1 := by
  have hcl := countUnassigned_eq_length hun
  have hc : ∀ m, countUnassigned (assignLoop m (initState pieces starts)).puzzle_pieces
      = pieces.length - m := by
    intro m
    rw [assignLoop_count m (initState pieces starts) hnd]
    show countUnassigned pieces - m = _
    rw [hcl]
  refine ⟨hcl, ?_, fun m _ => hc m, ?_⟩
  · show countUnassigned (assignLoop (countUnassigned pieces) _).puzzle_pieces = 0
    rw [hc (countUnassigned pieces), hcl]
    omega
  · intro m hm
    have h1 := hc m
    refine ⟨by omega, ?_⟩
    apply step_count
    · rw [assignLoop_map_id]
      exact hnd
    · omega

/-- Witness for C3 on the two-actor example: the run starts with 2 unassigned
pieces, one remains after one iteration, and none remain at termination. -/
theorem termination_in_piece_count_witness :
    countUnassigned wPieces = wPieces.length ∧
      countUnassigned (runAssignment (initState wPieces wStarts)).puzzle_pieces = 0 ∧
      countUnassigned (assignLoop 1 (initState wPieces wStarts)).puzzle_pieces
        = wPieces.length - 1 ∧
      0 < countUnassigned (assignLoop 0 (initState wPieces wStarts)).puzzle_pieces := by
  have h := termination_in_piece_count wPieces wStarts (by decide)
    (by
      intro p hp
      simp only [wPieces, List.mem_cons, List.not_mem_nil, or_false] at hp
      rcases hp with rfl | rfl <;> rfl)
  exact ⟨h.1, h.2.1, h.2.2.1 1 (by decide), (h.2.2.2 0 (by decide)).1⟩

/-- Claim C10: `save_progress_google` clears the sheet and then writes the
rows built from the module-global `completed_streets`, ignoring its
`completed_list` parameter: calls under the same global agree regardless of
the parameter and of the prior sheet, and the written rows are the global's
entries — so a call made with an updated list while the global still holds the
pre-update list persists the stale pre-update contents. -/
theorem save_progress_uses_global (g : TrackerGlobals) (l1 l2 : List String)
    (s1 s2 : Sheet) :
    save_progress_google g l1 s1 = save_progress_google g l2 s2 ∧
      (save_progress_google g l1 s1).rows
        = g.completed_streets.map fun street => [street] := by
  constructor
  · rfl
  · show (if (g.completed_streets.map fun street => [street]) = []
        then ({ rows := [] } : Sheet)
        else { rows := g.completed_streets.map fun street => [street] }).rows
      = g.completed_streets.map fun street => [street]
    by_cases h : (g.completed_streets.map fun street => [street]) = []
    · rw [if_pos h, h]
    · rw [if_neg h]

/-- Claim C8: when fewer points than requested micro-clusters are supplied,
the generator fails explicitly, and the pipeline aborts with that error
before the greedy loop ever runs. -/
theorem insufficient_points_fail (X : List (ℚ × ℚ)) (P : ℕ)
    (starts : List (ℚ × ℚ)) (h : X.length < P) :
    microClusterGenerator X P
        = Except.error ("cannot extract more clusters than samples") ∧
      assignPipeline X P starts
        = Except.error ("cannot extract more clusters than samples") := by
  have hg : microClusterGenerator X P
      = Except.error ("cannot extract more clusters than samples") := by
    unfold microClusterGenerator
    rw [if_pos h]
  refine ⟨hg, ?_⟩
  unfold assignPipeline
  rw [hg]
  rfl

/-- Witness for C8: zero points and one requested cluster abort the
pipeline. -/
theorem insufficient_points_fail_witness :
    microClusterGenerator [] 1
        = Except.error ("cannot extract more clusters than samples") ∧
      assignPipeline [] 1 wStarts
        = Except.error ("cannot extract more clusters than samples") :=
  insufficient_points_fail [] 1 wStarts (by decide)

/-- Claim C9 counterexample: on the one-actor five-piece input `exPieces`
(start anchor at the origin) the start-anchor distances are strictly
increasing in id, so nearest-first order from the start anchor would be
[0, 1, 2, 3, 4]; the loop instead assigns [0, 2, 1, 3, 4], because after
piece 0 the anchor drifts to (1/10, 0), from where piece 2 is nearer than
piece 1. -/
theorem single_actor_start_order_counterexample :
    (dist2 (1, 0) (0, 0) < dist2 (-11 / 10, 0) (0, 0) ∧
      dist2 (-11 / 10, 0) (0, 0) < dist2 (6 / 5, 0) (0, 0) ∧
      dist2 (6 / 5, 0) (0, 0) < dist2 (100, 0) (0, 0) ∧
      dist2 (100, 0) (0, 0) < dist2 (101, 0) (0, 0)) ∧
      (runAssignment (initState exPieces [(0, 0)])).person_assignments
        = [[0, 2, 1, 3, 4]] ∧
      ([[0, 2, 1, 3, 4]] : List (List ℕ)) ≠ [[0, 1, 2, 3, 4]] := by
  refine ⟨?_, ?_, by decide⟩
  · norm_num [dist2]
  · norm_num [runAssignment, assignLoop, step, findBest, betterPiece, selectPerson,
      sorted_persons, countUnassigned, markAssigned, initState, dist2, exPieces,
      List.insertionSort, List.orderedInsert, loadRel]

/-- Claim C9 (amended): for 1 actor and 5 micro-clusters, every piece is
assigned to the sole actor — its list is a permutation of the piece ids,
produced nearest-first from the actor's current (drifting) anchor — and the
actor's load increases strictly monotonically up to the total point count. -/
theorem single_actor_run (pieces : List Piece) (s : ℚ × ℚ)
    (h5 : pieces.length = 5) (hnd : (pieces.map Piece.id).Nodup)
    (hun : ∀ p ∈ pieces, p.assigned = false) (hpos : ∀ p ∈ pieces, 0 < p.size) :
    ((runAssignment (initState pieces [s])).person_assignments.getD 0 []).Perm
        (pieces.map Piece.id) ∧
      (runAssignment (initState pieces [s])).person_load.getD 0 0 = totalSize pieces ∧
      (∀ m, m < 5 →
        (assignLoop m (initState pieces [s])).person_load.getD 0 0
          < (assignLoop (m + 1) (initState pieces [s])).person_load.getD 0 0) ∧
      ∀ m, m < 5 → ∃ b d,
        findBest ((assignLoop m (initState pieces [s])).person_coords_proj.getD 0 (0, 0))
            (assignLoop m (initState pieces [s])).puzzle_pieces none = some (b, d) ∧
          (assignLoop (m + 1) (initState pieces [s])).person_assignments.getD 0 []
            = (assignLoop m (initState pieces [s])).person_assignments.getD 0 [] ++ [b.id] ∧
          ∀ q ∈ (assignLoop m (initState pieces [s])).puzzle_pieces, q.assigned = false →
            d ≤ dist2 q.center
              ((assignLoop m (initState pieces [s])).person_coords_proj.getD 0 (0, 0)) := by
  have hne : ([s] : List (ℚ × ℚ)) ≠ [] := List.cons_ne_nil _ _
  have hloadlen : ∀ m, (assignLoop m (initState pieces [s])).person_load.length = 1 := by
    intro m
    rw [assignLoop_load_length]
    rfl
  have hlne : ∀ m, (assignLoop m (initState pieces [s])).person_load ≠ [] := by
    intro m hc
    have h1 := hloadlen m
    rw [hc] at h1
    simp at h1
  have hasslen : ∀ m, (assignLoop m (initState pieces [s])).person_assignments.length = 1 := by
    intro m
    rw [assignLoop_assignments_length]
    rfl
  have hsel : ∀ m, selectPerson (assignLoop m (initState pieces [s])).person_load = 0 := by
    intro m
    have h := selectPerson_lt (hlne m)
    rw [hloadlen m] at h
    omega
  have hcnt : ∀ m, countUnassigned (assignLoop m (initState pieces [s])).puzzle_pieces
      = 5 - m := by
    intro m
    rw [assignLoop_count m _ hnd]
    show countUnassigned pieces - m = _
    rw [countUnassigned_eq_length hun, h5]
  have key : ∀ m, m < 5 → ∃ b d,
      findBest ((assignLoop m (initState pieces [s])).person_coords_proj.getD 0 (0, 0))
          (assignLoop m (initState pieces [s])).puzzle_pieces none = some (b, d) ∧
        b ∈ (assignLoop m (initState pieces [s])).puzzle_pieces ∧ b.assigned = false := by
    intro m hm
    obtain ⟨b, d, hf, hb1, hb2, _⟩ := findBest_some_of_pos
      ((assignLoop m (initState pieces [s])).person_coords_proj.getD 0 (0, 0))
      (assignLoop m (initState pieces [s])).puzzle_pieces (by rw [hcnt m]; omega)
    exact ⟨b, d, hf, hb1, hb2⟩
  have hbsize : ∀ m b, b ∈ (assignLoop m (initState pieces [s])).puzzle_pieces →
      0 < b.size := by
    intro m b hb
    have hmem : b.size ∈ (assignLoop m (initState pieces [s])).puzzle_pieces.map Piece.size :=
      List.mem_map_of_mem _ hb
    rw [assignLoop_map_size] at hmem
    obtain ⟨q, hq, hqe⟩ := List.mem_map.mp hmem
    rw [← hqe]
    exact hpos q hq
  obtain ⟨hperm, hsum, halen⟩ := runAssignment_final pieces [s] hne hnd hun
  refine ⟨?_, ?_, ?_, ?_⟩
  · obtain ⟨l, hl⟩ := List.length_eq_one.mp (by rw [halen]; rfl)
    rw [hl] at hperm ⊢
    simpa using hperm
  · have hplen : (runAssignment (initState pieces [s])).person_load.length = 1 := by
      rw [runAssignment_load_length]
      rfl
    obtain ⟨x, hx⟩ := List.length_eq_one.mp hplen
    rw [hx] at hsum ⊢
    simpa using hsum
  · intro m hm
    obtain ⟨b, d, hf, hb1, hb2⟩ := key m hm
    have hstep := step_of_findBest (assignLoop m (initState pieces [s])) b d
      (by rw [hsel m]; exact hf)
    rw [assignLoop_succ, hstep]
    show (assignLoop m (initState pieces [s])).person_load.getD 0 0
      < (((assignLoop m (initState pieces [s])).person_load).set _ _).getD 0 0
    rw [hsel m, getD_set_same _ _ _ _ (by rw [hloadlen m]; omega)]
    have := hbsize m b hb1
    omega
  · intro m hm
    obtain ⟨b, d, hf, hb1, hb2⟩ := key m hm
    refine ⟨b, d, hf, ?_, ?_⟩
    · have hstep := step_of_findBest (assignLoop m (initState pieces [s])) b d
        (by rw [hsel m]; exact hf)
      rw [assignLoop_succ, hstep]
      show (((assignLoop m (initState pieces [s])).person_assignments).set _ _).getD 0 []
        = _
      rw [hsel m, getD_set_same _ _ _ _ (by rw [hasslen m]; omega)]
    · intro q hq hqa
      exact findBest_le _ _ _ _ _ hf q hq hqa

/-- Claim C2: at termination every micro-cluster id belongs to exactly one
person's assignment list, the final loads sum to the total point count `N`,
and via its label every input point is carried to exactly one person by
`micro_to_person`. -/
theorem coverage_and_conservation (X : List (ℚ × ℚ)) (labels : List ℕ) (P : ℕ)
    (starts : List (ℚ × ℚ)) (hne : starts ≠ [])
    (hlen : labels.length = X.length) (hlab : ∀ l ∈ labels, l < P) :
    (∀ pid, pid < P → ∃! a, a < starts.length ∧
        pid ∈ (runAssignment (initState (mkPieces X labels P) starts)).person_assignments.getD
          a []) ∧
      (runAssignment (initState (mkPieces X labels P) starts)).person_load.sum = X.length ∧
      ∀ t, t < labels.length → ∃ a,
        micro_to_person
            (runAssignment (initState (mkPieces X labels P) starts)).person_assignments
            (labels.getD t 0) = some a := by
  have hnd : ((mkPieces X labels P).map Piece.id).Nodup := by
    rw [mkPieces_map_id]
    exact List.nodup_range P
  obtain ⟨hperm, hsum, halen⟩ := runAssignment_final (mkPieces X labels P) starts hne hnd
    (mkPieces_unassigned X labels P)
  have hpermr : (runAssignment (initState (mkPieces X labels P)
      starts)).person_assignments.flatten.Perm (List.range P) := by
    rw [mkPieces_map_id] at hperm
    exact hperm
  have hflatnd : (runAssignment (initState (mkPieces X labels P)
      starts)).person_assignments.flatten.Nodup :=
    hpermr.nodup_iff.mpr (List.nodup_range P)
  have hexists : ∀ pid, pid < P → ∃ a,
      a < (runAssignment (initState (mkPieces X labels P) starts)).person_assignments.length ∧
        pid ∈ (runAssignment (initState (mkPieces X labels P) starts)).person_assignments.getD
          a [] := by
    intro pid hpid
    have hmem : pid ∈ (runAssignment (initState (mkPieces X labels P)
        starts)).person_assignments.flatten := hpermr.mem_iff.mpr (List.mem_range.mpr hpid)
    exact flatten_mem_idx hmem
  refine ⟨?_, ?_, ?_⟩
  · intro pid hpid
    obtain ⟨a, ha, hmema⟩ := hexists pid hpid
    refine ⟨a, ⟨by rw [← halen]; exact ha, hmema⟩, ?_⟩
    rintro b ⟨hb, hmemb⟩
    exact flatten_nodup_unique hflatnd (by rw [halen]; exact hb) ha hmemb hmema
  · rw [hsum, totalSize_mkPieces X labels P hlen hlab]
  · intro t ht
    have hmemt : labels.getD t 0 ∈ labels := by
      rw [List.getD_eq_getElem _ _ ht]
      exact List.getElem_mem _
    obtain ⟨a, ha, hmema⟩ := hexists _ (hlab _ hmemt)
    obtain ⟨c, hc, _, _⟩ := micro_to_person_total ⟨a, ha, hmema⟩
    exact ⟨c, hc⟩

/-- Witness for C2: four points in two micro-clusters distributed to two
persons; the final loads sum to the four input points. -/
theorem coverage_and_conservation_witness :
    (runAssignment (initState (mkPieces wX wLabels 2) wStarts)).person_load.sum
      = wX.length :=
  (coverage_and_conservation wX wLabels 2 wStarts (by decide) (by decide)
    (by decide)).2.1

/-- Witness for the amended C9 on `exPieces`: the sole actor ends with all
five points, and the first iteration strictly increases its load. -/
theorem single_actor_run_witness :
    (runAssignment (initState exPieces [((0 : ℚ), (0 : ℚ))])).person_load.getD 0 0
        = totalSize exPieces ∧
      (assignLoop 0 (initState exPieces [((0 : ℚ), (0 : ℚ))])).person_load.getD 0 0
        < (assignLoop 1 (initState exPieces [((0 : ℚ), (0 : ℚ))])).person_load.getD 0 0 := by
  have h := single_actor_run exPieces ((0 : ℚ), (0 : ℚ)) (by decide) (by decide)
    (by
      intro p hp
      simp only [exPieces, List.mem_cons, List.not_mem_nil, or_false] at hp
      rcases hp with rfl | rfl | rfl | rfl | rfl <;> rfl)
    (by
      intro p hp
      simp only [exPieces, List.mem_cons, List.not_mem_nil, or_false] at hp
      rcases hp with rfl | rfl | rfl | rfl | rfl <;> decide)
  exact ⟨h.2.1, h.2.2.1 0 (by decide)⟩
